import Mathlib

/-!
# osm2arango — verification of the streaming-ingest pipeline

Shallow embedding of the core of the `osm2arango` repository:

* `src/util/document-chunker.ts` — byte-bounded document chunker
* `src/util/lines.ts`            — byte-accurate line reader
* `src/domain/import.ts`         — import orchestrator (ndjson adapter,
  unsupported-geometry tracking, bounded-concurrency dispatch, finalization)
* `src/arango/arango.data.ts`    — raw-HTTP (node-http) upload transport

Machine strings are modelled as Lean `String`s, byte streams as `List Nat`
(one `Nat` per byte, newline = 10), JavaScript `number` counters as `Nat`
(they only ever hold non-negative integers in the embedded code), and
JavaScript exceptions as `Except String` / error values carrying the state
at the throw point.
-/

namespace Osm2Arango

/-! ## DocumentChunker (src/util/document-chunker.ts)

The chunker closure holds `docs : T[]` and `bytes : number`; we embed the
pair as a structure.  `bytes` in the source is always the sum of the
resolved byte sizes of the documents currently in `docs`. -/

structure ChunkerState (T : Type u) where
  docs : List T
  bytes : Nat
deriving Repr, DecidableEq

/-- Initial state of `createDocumentChunker` (lines 11-12): empty `docs`,
`bytes = 0`.  The constructor's `maxBytes` validation (line 7, throws when
`maxBytes <= 0`) is reflected by the `0 < maxBytes` hypotheses of the
theorems below. -/
def chunkerInit (T : Type u) : ChunkerState T := ⟨[], 0⟩

/-- `flush` (lines 14-21): returns `undefined` when `docs` is empty,
otherwise returns a copy of `docs` and resets `docs`/`bytes`. -/
def chunkerFlush (st : ChunkerState T) : Option (List T) × ChunkerState T :=
  if st.docs.isEmpty then (none, st)
  else (some st.docs, ⟨[], 0⟩)

/-- `push` (lines 23-40).  `sizeOf doc` models
`Buffer.byteLength(JSON.stringify(doc), 'utf8')`, the serialized wire size;
the `+ 1` is the source's one-byte record separator.  The explicit
`estimatedBytes` is used only when it is a positive (finite) number,
mirroring line 26.  When the open batch is non-empty and adding `docBytes`
would exceed `maxBytes` (strict `>`), the open batch is returned and the new
document starts a fresh batch (lines 30-35). -/
def resolveDocBytes (sizeOf : T → Nat) (doc : T) (estimatedBytes : Option Nat) : Nat :=
  match estimatedBytes with
  | some e => if 0 < e then e else sizeOf doc + 1
  | none => sizeOf doc + 1

def chunkerPush (maxBytes : Nat) (sizeOf : T → Nat) (st : ChunkerState T)
    (doc : T) (estimatedBytes : Option Nat) : Option (List T) × ChunkerState T :=
  let docBytes := resolveDocBytes sizeOf doc estimatedBytes
  if 0 < st.docs.length ∧ maxBytes < st.bytes + docBytes then
    (some st.docs, ⟨[doc], docBytes⟩)
  else
    (none, ⟨st.docs ++ [doc], st.bytes + docBytes⟩)

/-- One call against the chunker's public interface: `push doc estimatedBytes`
or `flush`. -/
inductive ChunkerOp (T : Type u) where
  | push (doc : T) (estimatedBytes : Option Nat)
  | flush
deriving Repr

/-- Replays a history of `push`/`flush` calls, collecting every batch the
chunker returns, in order, together with the final internal state. -/
def chunkerRunOps (maxBytes : Nat) (sizeOf : T → Nat) :
    ChunkerState T → List (ChunkerOp T) → List (List T) × ChunkerState T
  | st, [] => ([], st)
  | st, op :: rest =>
    let step :=
      match op with
      | .push d e => chunkerPush maxBytes sizeOf st d e
      | .flush => chunkerFlush st
    let tail := chunkerRunOps maxBytes sizeOf step.2 rest
    (step.1.toList ++ tail.1, tail.2)

/-- The documents pushed by a history, in call order. -/
def pushedDocs : List (ChunkerOp T) → List T
  | [] => []
  | .push d _ :: rest => d :: pushedDocs rest
  | .flush :: rest => pushedDocs rest

/-- Sum of the size components of a list of (document, size) pairs. -/
def sumSnd (l : List (T × Nat)) : Nat := (l.map Prod.snd).sum

/-- To reason about batch byte totals we instantiate the generic chunker at
documents paired with their size, pushed with that size as the explicit
estimate (the orchestrator always passes a positive explicit estimate,
`line.length + 1`).  With `sizeOf = Prod.snd` the resolved `docBytes` of a
pair `(d, s)` with `0 < s` is exactly `s`. -/
def sizedPush (maxBytes : Nat) (st : ChunkerState (T × Nat)) (p : T × Nat) :
    Option (List (T × Nat)) × ChunkerState (T × Nat) :=
  chunkerPush maxBytes Prod.snd st p (some p.2)

/-- A push/flush history where every push carries its size as the explicit
estimate: `some p` is `push p (some p.2)`, `none` is `flush`. -/
def sizedOps : List (Option (T × Nat)) → List (ChunkerOp (T × Nat))
  | [] => []
  | some p :: rest => .push p (some p.2) :: sizedOps rest
  | none :: rest => .flush :: sizedOps rest

/-- All batches a sized history produces, including the final `flush()` the
orchestrator performs after the input is exhausted. -/
def sizedRunAll (maxBytes : Nat) (items : List (Option (T × Nat))) : List (List (T × Nat)) :=
  let r := chunkerRunOps maxBytes Prod.snd (chunkerInit (T × Nat)) (sizedOps items)
  r.1 ++ (chunkerFlush r.2).1.toList

theorem sumSnd_append (a b : List (T × Nat)) : sumSnd (a ++ b) = sumSnd a + sumSnd b := by
  simp [sumSnd]

theorem sumSnd_singleton (p : T × Nat) : sumSnd [p] = p.2 := by
  simp [sumSnd]

theorem sizedPush_of_pos (maxBytes : Nat) (st : ChunkerState (T × Nat)) (p : T × Nat)
    (hp : 0 < p.2) :
    sizedPush maxBytes st p =
      if 0 < st.docs.length ∧ maxBytes < st.bytes + p.2 then (some st.docs, ⟨[p], p.2⟩)
      else (none, ⟨st.docs ++ [p], st.bytes + p.2⟩) := by
  simp only [sizedPush, chunkerPush, resolveDocBytes, if_pos hp]

theorem chunkerFlush_getD (st : ChunkerState T) : ((chunkerFlush st).1.getD []) = st.docs := by
  by_cases h : st.docs.isEmpty
  · simp [chunkerFlush, h, List.isEmpty_iff.mp h]
  · simp [chunkerFlush, h]

theorem chunkerRunOps_cons_push (maxBytes : Nat) (sizeOf : T → Nat) (st : ChunkerState T)
    (d : T) (e : Option Nat) (rest : List (ChunkerOp T)) :
    chunkerRunOps maxBytes sizeOf st (.push d e :: rest) =
      ((chunkerPush maxBytes sizeOf st d e).1.toList
          ++ (chunkerRunOps maxBytes sizeOf (chunkerPush maxBytes sizeOf st d e).2 rest).1,
        (chunkerRunOps maxBytes sizeOf (chunkerPush maxBytes sizeOf st d e).2 rest).2) := rfl

theorem chunkerRunOps_cons_flush (maxBytes : Nat) (sizeOf : T → Nat) (st : ChunkerState T)
    (rest : List (ChunkerOp T)) :
    chunkerRunOps maxBytes sizeOf st (.flush :: rest) =
      ((chunkerFlush st).1.toList
          ++ (chunkerRunOps maxBytes sizeOf (chunkerFlush st).2 rest).1,
        (chunkerRunOps maxBytes sizeOf (chunkerFlush st).2 rest).2) := rfl

/-- Size invariant carried through a sized history: every batch handed out
so far fits in `maxBytes`, and the open batch's `bytes` counter is the sum
of its members' sizes and still fits. -/
theorem chunkerRunOps_sized_bounded (T : Type u) (maxBytes : Nat) :
    ∀ (items : List (Option (T × Nat))) (st : ChunkerState (T × Nat)),
    (∀ p, some p ∈ items → 0 < p.2 ∧ p.2 ≤ maxBytes) →
    st.bytes = sumSnd st.docs → st.bytes ≤ maxBytes →
    (∀ b ∈ (chunkerRunOps maxBytes Prod.snd st (sizedOps items)).1, sumSnd b ≤ maxBytes)
    ∧ (chunkerRunOps maxBytes Prod.snd st (sizedOps items)).2.bytes
        = sumSnd (chunkerRunOps maxBytes Prod.snd st (sizedOps items)).2.docs
    ∧ (chunkerRunOps maxBytes Prod.snd st (sizedOps items)).2.bytes ≤ maxBytes := by
  intro items
  induction items with
  | nil =>
    intro st _ h1 h2
    refine ⟨?_, h1, h2⟩
    intro b hb
    simp [sizedOps, chunkerRunOps] at hb
  | cons o rest ih =>
    intro st hmem h1 h2
    have hrest : ∀ p, some p ∈ rest → 0 < p.2 ∧ p.2 ≤ maxBytes := by
      intro p hp; exact hmem p (List.mem_cons_of_mem _ hp)
    cases o with
    | none =>
      -- flush call
      simp only [sizedOps, chunkerRunOps_cons_flush]
      by_cases hd : st.docs.isEmpty
      · have hfl : chunkerFlush st = (none, st) := by simp [chunkerFlush, hd]
        rw [hfl]
        simpa using ih st hrest h1 h2
      · have hfl : chunkerFlush st = (some st.docs, ⟨[], 0⟩) := by simp [chunkerFlush, hd]
        rw [hfl]
        have hih := ih ⟨[], 0⟩ hrest (by simp [sumSnd]) (Nat.zero_le _)
        refine ⟨?_, hih.2.1, hih.2.2⟩
        intro b hb
        simp only [Option.toList_some, List.cons_append, List.nil_append, List.mem_cons] at hb
        rcases hb with hb | hb
        · subst hb; rw [← h1]; exact h2
        · exact hih.1 b hb
    | some p =>
      have hp := hmem p (List.mem_cons_self _ _)
      simp only [sizedOps, chunkerRunOps_cons_push]
      by_cases hc : 0 < st.docs.length ∧ maxBytes < st.bytes + p.2
      · -- batch closes: the returned batch is the previous open batch
        have hpush : chunkerPush maxBytes Prod.snd st p (some p.2)
            = (some st.docs, ⟨[p], p.2⟩) := by
          have := sizedPush_of_pos maxBytes st p hp.1
          rw [if_pos hc] at this
          simpa [sizedPush] using this
        rw [hpush]
        have hih := ih ⟨[p], p.2⟩ hrest (by simp [sumSnd]) hp.2
        refine ⟨?_, hih.2.1, hih.2.2⟩
        intro b hb
        simp only [Option.toList_some, List.cons_append, List.nil_append, List.mem_cons] at hb
        rcases hb with hb | hb
        · subst hb; rw [← h1]; exact h2
        · exact hih.1 b hb
      · -- document appended to the open batch
        have hpush : chunkerPush maxBytes Prod.snd st p (some p.2)
            = (none, ⟨st.docs ++ [p], st.bytes + p.2⟩) := by
          have := sizedPush_of_pos maxBytes st p hp.1
          rw [if_neg hc] at this
          simpa [sizedPush] using this
        rw [hpush]
        have hle : st.bytes + p.2 ≤ maxBytes := by
          by_cases hlen : 0 < st.docs.length
          · rcases Nat.lt_or_ge maxBytes (st.bytes + p.2) with hgt | hge
            · exact absurd ⟨hlen, hgt⟩ hc
            · exact hge
          · have hdocs : st.docs = [] := by
              cases hdl : st.docs with
              | nil => rfl
              | cons a l => rw [hdl] at hlen; simp at hlen
            have hz : st.bytes = 0 := by rw [h1, hdocs]; simp [sumSnd]
            rw [hz]; simpa using hp.2
        have hih := ih ⟨st.docs ++ [p], st.bytes + p.2⟩ hrest
          (by rw [sumSnd_append, sumSnd_singleton, h1]) hle
        refine ⟨?_, hih.2.1, hih.2.2⟩
        intro b hb
        simp only [Option.toList_none, List.nil_append] at hb
        exact hih.1 b hb

/-- C1: over any history of `push`/`flush` calls in which every pushed
document's explicit (positive) size estimate is at most `maxBytes`, every
batch the chunker returns — from `push` or from the final `flush` — has
total estimated size at most `maxBytes`; a `push` that brings the open
batch's total to exactly `maxBytes` returns no batch (the threshold test on
line 30 is strict `>`); and a document pushed into an empty chunker is
always accepted as the sole member of the open batch, whatever its size. -/
theorem chunker_batch_size_bounded (T : Type) (maxBytes : Nat)
    (items : List (Option (T × Nat)))
    (hpos : ∀ p, some p ∈ items → 0 < p.2)
    (hle : ∀ p, some p ∈ items → p.2 ≤ maxBytes) :
    (∀ b ∈ sizedRunAll maxBytes items, sumSnd b ≤ maxBytes)
    ∧ (∀ (st : ChunkerState (T × Nat)) (p : T × Nat), 0 < p.2 →
        st.bytes + p.2 = maxBytes → (sizedPush maxBytes st p).1 = none)
    ∧ (∀ (st : ChunkerState (T × Nat)) (p : T × Nat), st.docs = [] →
        (sizedPush maxBytes st p).1 = none ∧ (sizedPush maxBytes st p).2.docs = [p]) := by
  have main := chunkerRunOps_sized_bounded T maxBytes items (chunkerInit (T × Nat))
    (fun p hp => ⟨hpos p hp, hle p hp⟩) (by simp [chunkerInit, sumSnd]) (Nat.zero_le _)
  refine ⟨?_, ?_, ?_⟩
  · intro b hb
    simp only [sizedRunAll, List.mem_append] at hb
    rcases hb with hb | hb
    · exact main.1 b hb
    · set fin := (chunkerRunOps maxBytes Prod.snd (chunkerInit (T × Nat)) (sizedOps items)).2
      by_cases hd : fin.docs.isEmpty
      · simp [chunkerFlush, hd] at hb
      · simp only [chunkerFlush, hd, Bool.false_eq_true, if_false, Option.toList_some,
          List.mem_singleton] at hb
        subst hb
        rw [← main.2.1]; exact main.2.2
  · intro st p hp hexact
    rw [sizedPush_of_pos maxBytes st p hp]
    have : ¬(0 < st.docs.length ∧ maxBytes < st.bytes + p.2) := by
      rintro ⟨-, hlt⟩; rw [hexact] at hlt; exact Nat.lt_irrefl _ hlt
    simp [this]
  · intro st p hdocs
    constructor
    · simp [sizedPush, chunkerPush, hdocs]
    · simp [sizedPush, chunkerPush, hdocs]

/-- Witness for `chunker_batch_size_bounded` at a concrete sized history. -/
theorem chunker_batch_size_bounded_witness :
    (∀ p, some p ∈ ([some ((0 : Nat), 6), some (1, 5), some (2, 10), none, some (3, 4)] :
        List (Option (Nat × Nat))) → 0 < p.2)
    ∧ (∀ p, some p ∈ ([some ((0 : Nat), 6), some (1, 5), some (2, 10), none, some (3, 4)] :
        List (Option (Nat × Nat))) → p.2 ≤ 10)
    ∧ ((∀ b ∈ sizedRunAll 10 [some ((0 : Nat), 6), some (1, 5), some (2, 10), none, some (3, 4)],
          sumSnd b ≤ 10)
      ∧ (∀ (st : ChunkerState (Nat × Nat)) (p : Nat × Nat), 0 < p.2 →
          st.bytes + p.2 = 10 → (sizedPush 10 st p).1 = none)
      ∧ (∀ (st : ChunkerState (Nat × Nat)) (p : Nat × Nat), st.docs = [] →
          (sizedPush 10 st p).1 = none ∧ (sizedPush 10 st p).2.docs = [p])) := by
  have hpos : ∀ p : Nat × Nat,
      some p ∈ ([some ((0 : Nat), 6), some (1, 5), some (2, 10), none, some (3, 4)] :
        List (Option (Nat × Nat))) → 0 < p.2 := by
    intro p hp
    simp only [List.mem_cons, List.not_mem_nil, or_false, Option.some.injEq,
      reduceCtorEq, false_or] at hp
    rcases hp with rfl | rfl | rfl | rfl <;> decide
  have hle : ∀ p : Nat × Nat,
      some p ∈ ([some ((0 : Nat), 6), some (1, 5), some (2, 10), none, some (3, 4)] :
        List (Option (Nat × Nat))) → p.2 ≤ 10 := by
    intro p hp
    simp only [List.mem_cons, List.not_mem_nil, or_false, Option.some.injEq,
      reduceCtorEq, false_or] at hp
    rcases hp with rfl | rfl | rfl | rfl <;> decide
  exact ⟨hpos, hle, chunker_batch_size_bounded Nat 10 _ hpos hle⟩

/-- Accounting invariant: the concatenation of all batches returned so far,
followed by the still-open batch, is exactly the starting open batch
followed by every document pushed, in call order. -/
theorem chunkerRunOps_accounting (maxBytes : Nat) (sizeOf : T → Nat) :
    ∀ (ops : List (ChunkerOp T)) (st : ChunkerState T),
    (chunkerRunOps maxBytes sizeOf st ops).1.flatten
        ++ (chunkerRunOps maxBytes sizeOf st ops).2.docs
      = st.docs ++ pushedDocs ops := by
  intro ops
  induction ops with
  | nil => intro st; simp [chunkerRunOps, pushedDocs]
  | cons op rest ih =>
    intro st
    cases op with
    | flush =>
      rw [chunkerRunOps_cons_flush]
      by_cases hd : st.docs.isEmpty
      · have hfl : chunkerFlush st = (none, st) := by simp [chunkerFlush, hd]
        rw [hfl]
        have hnil : st.docs = [] := List.isEmpty_iff.mp hd
        simpa [pushedDocs, hnil] using ih st
      · have hfl : chunkerFlush st = (some st.docs, ⟨[], 0⟩) := by simp [chunkerFlush, hd]
        rw [hfl]
        simp only [pushedDocs, Option.toList_some, List.cons_append, List.nil_append,
          List.flatten_cons, List.append_assoc]
        rw [ih (⟨[], 0⟩ : ChunkerState T)]
        simp
    | push d e =>
      rw [chunkerRunOps_cons_push]
      by_cases hc : 0 < st.docs.length ∧ maxBytes < st.bytes + resolveDocBytes sizeOf d e
      · have hpush : chunkerPush maxBytes sizeOf st d e
            = (some st.docs, ⟨[d], resolveDocBytes sizeOf d e⟩) := by
          simp only [chunkerPush, if_pos hc]
        rw [hpush]
        simp only [pushedDocs, Option.toList_some, List.cons_append, List.nil_append,
          List.flatten_cons, List.append_assoc]
        rw [ih (⟨[d], resolveDocBytes sizeOf d e⟩ : ChunkerState T)]
        simp
      · have hpush : chunkerPush maxBytes sizeOf st d e
            = (none, ⟨st.docs ++ [d], st.bytes + resolveDocBytes sizeOf d e⟩) := by
          simp only [chunkerPush, if_neg hc]
        rw [hpush]
        simp only [pushedDocs, Option.toList_none, List.nil_append]
        rw [ih (⟨st.docs ++ [d], st.bytes + resolveDocBytes sizeOf d e⟩ : ChunkerState T)]
        simp

theorem pushedDocs_map_push (inputs : List (T × Option Nat)) :
    pushedDocs (inputs.map (fun q => ChunkerOp.push q.1 q.2)) = inputs.map Prod.fst := by
  induction inputs with
  | nil => simp [pushedDocs]
  | cons q rest ih => simp [pushedDocs, ih]

/-- C9: over any history of `push`/`flush` calls, concatenating every batch
the chunker returned, followed by the documents still held in the open
batch, gives each pushed document exactly once, in original push order (so
no two returned batches ever share a document); and a `flush()` after a
run of pushes that returned no batch hands back exactly those pushed
documents, in order. -/
theorem chunker_flush_returns_all_in_order (T : Type) (maxBytes : Nat) (sizeOf : T → Nat)
    (ops : List (ChunkerOp T)) (inputs : List (T × Option Nat)) :
    ((chunkerRunOps maxBytes sizeOf (chunkerInit T) ops).1.flatten
        ++ (chunkerRunOps maxBytes sizeOf (chunkerInit T) ops).2.docs
      = pushedDocs ops)
    ∧ ((chunkerRunOps maxBytes sizeOf (chunkerInit T)
          (inputs.map (fun q => ChunkerOp.push q.1 q.2))).1 = [] →
        ((chunkerFlush (chunkerRunOps maxBytes sizeOf (chunkerInit T)
            (inputs.map (fun q => ChunkerOp.push q.1 q.2))).2).1.getD [])
          = inputs.map Prod.fst) := by
  constructor
  · simpa [chunkerInit] using chunkerRunOps_accounting maxBytes sizeOf ops (chunkerInit T)
  · intro hnil
    rw [chunkerFlush_getD]
    have := chunkerRunOps_accounting maxBytes sizeOf
      (inputs.map (fun q => ChunkerOp.push q.1 q.2)) (chunkerInit T)
    rw [hnil, pushedDocs_map_push] at this
    simpa [chunkerInit] using this

/-- Witness for `chunker_flush_returns_all_in_order` at a concrete history. -/
theorem chunker_flush_returns_all_in_order_witness :
    ((chunkerRunOps 5 (fun _ => 2) (chunkerInit Nat)
          [.push 7 (some 3), .push 8 none, .flush, .push 9 (some 4)]).1.flatten
        ++ (chunkerRunOps 5 (fun _ => 2) (chunkerInit Nat)
          [.push 7 (some 3), .push 8 none, .flush, .push 9 (some 4)]).2.docs
      = pushedDocs [.push 7 (some 3), .push 8 none, .flush, .push 9 (some 4)])
    ∧ ((chunkerRunOps 5 (fun _ => 2) (chunkerInit Nat)
          (([(7, some 3), (8, none)] : List (Nat × Option Nat)).map
            (fun q => ChunkerOp.push q.1 q.2))).1 = [] →
        ((chunkerFlush (chunkerRunOps 5 (fun _ => 2) (chunkerInit Nat)
            (([(7, some 3), (8, none)] : List (Nat × Option Nat)).map
              (fun q => ChunkerOp.push q.1 q.2))).2).1.getD [])
          = ([(7, some 3), (8, none)] : List (Nat × Option Nat)).map Prod.fst) :=
  chunker_flush_returns_all_in_order Nat 5 (fun _ => 2)
    [.push 7 (some 3), .push 8 none, .flush, .push 9 (some 4)]
    [(7, some 3), (8, none)]

/-! ## LineReader (src/util/lines.ts, `readLines` with options, lines 42-158)

The reader splits a byte stream into lines on byte 10.  We embed it at the
byte level: a chunk is a `List Nat` of bytes and a yielded line is the byte
content handed to `TextDecoder` (`decodeParts`, which concatenates the
buffered `parts`).  The source keeps the buffered bytes in `parts` (with
`partsBytes` their total length) and, while a too-long line is being
discarded, only the counter `droppedBytes`; the model keeps the dropped
bytes themselves, so `droppedBytes` is the length of `dropped`. -/

inductive TooLongLineMode where
  | skip
  | error
deriving Repr, DecidableEq

structure ReadLinesOptions where
  maxLineBytes : Option Nat
  tooLongLine : TooLongLineMode
  flushFinalPartialLine : Bool
deriving Repr, DecidableEq

/-- One observable output of `readLines`: a yielded line, an
`onTooLongLine` callback (whose reported `bytes` is `lineBytes.length`), or
an `onFinalPartialLine` callback (reported `bytes` is `lineBytes.length`). -/
inductive RLEvent where
  | line (bytes : List Nat)
  | tooLong (lineBytes : List Nat) (maxLineBytes : Nat)
  | finalPartial (lineBytes : List Nat)
deriving Repr, DecidableEq

def RLEvent.content : RLEvent → List Nat
  | .line l => l
  | .tooLong l _ => l
  | .finalPartial l => l

/-- Loop state of `readLines`: `parts` is the buffered current line,
`dropping`/`dropped` the skip-mode discard state (source lines 56-60). -/
structure RLState where
  parts : List Nat
  dropping : Bool
  dropped : List Nat
deriving Repr, DecidableEq

def rlInit : RLState := ⟨[], false, []⟩

/-- Splits one chunk into its newline-terminated segments and the trailing
bytes after the last newline (the source finds them one at a time with
`chunk.indexOf(10, start)`; lines 98-121). -/
def splitNl : List Nat → List (List Nat) × List Nat
  | [] => ([], [])
  | b :: bs =>
    let r := splitNl bs
    if b = 10 then ([] :: r.1, r.2)
    else
      match r with
      | (s :: ss, t) => ((b :: s) :: ss, t)
      | ([], t) => ([], b :: t)

/-- Handles one newline-terminated segment (`head`), source lines 121-140:
if dropping, account the head to the dropped line and finish it
(`finishDroppedLine` fires `onTooLongLine` only when `maxLineBytes` is set);
otherwise buffer the head and either fail (`error` policy), fire
`onTooLongLine` (`skip` policy), or yield the decoded line.  Lines 138-139
reset `parts` after every segment. -/
def processSeg (opts : ReadLinesOptions) (st : RLState) (seg : List Nat) :
    Except String (List RLEvent × RLState) :=
  if st.dropping then
    match opts.maxLineBytes with
    | some m => .ok ([.tooLong (st.dropped ++ seg) m], ⟨[], false, []⟩)
    | none => .ok ([], ⟨[], false, []⟩)
  else
    let parts := st.parts ++ seg
    match opts.maxLineBytes with
    | some m =>
      if m < parts.length then
        match opts.tooLongLine with
        | .error => .error "Line exceeds maxLineBytes"
        | .skip => .ok ([.tooLong parts m], ⟨[], false, st.dropped⟩)
      else .ok ([.line parts], ⟨[], false, st.dropped⟩)
    | none => .ok ([.line parts], ⟨[], false, st.dropped⟩)

/-- Handles the trailing bytes of a chunk after its last newline, source
lines 101-118: account them to the dropped line, or buffer them and switch
to dropping (or fail) once the buffer exceeds `maxLineBytes`. -/
def processTail (opts : ReadLinesOptions) (st : RLState) (tail : List Nat) :
    Except String RLState :=
  if st.dropping then
    .ok ⟨st.parts, true, st.dropped ++ tail⟩
  else
    let parts := st.parts ++ tail
    match opts.maxLineBytes with
    | some m =>
      if m < parts.length then
        match opts.tooLongLine with
        | .error => .error "Line exceeds maxLineBytes"
        | .skip => .ok ⟨[], true, parts⟩
      else .ok ⟨parts, false, st.dropped⟩
    | none => .ok ⟨parts, false, st.dropped⟩

def processSegs (opts : ReadLinesOptions) :
    RLState → List (List Nat) → Except String (List RLEvent × RLState)
  | st, [] => .ok ([], st)
  | st, seg :: rest =>
    match processSeg opts st seg with
    | .error e => .error e
    | .ok r =>
      match processSegs opts r.2 rest with
      | .error e => .error e
      | .ok r' => .ok (r.1 ++ r'.1, r'.2)

/-- One iteration of the `for await (const chunk of stream)` loop. -/
def processChunk (opts : ReadLinesOptions) (st : RLState) (chunk : List Nat) :
    Except String (List RLEvent × RLState) :=
  match processSegs opts st (splitNl chunk).1 with
  | .error e => .error e
  | .ok r =>
    match processTail opts r.2 (splitNl chunk).2 with
    | .error e => .error e
    | .ok st' => .ok (r.1, st')

def processChunks (opts : ReadLinesOptions) :
    RLState → List (List Nat) → Except String (List RLEvent × RLState)
  | st, [] => .ok ([], st)
  | st, c :: cs =>
    match processChunk opts st c with
    | .error e => .error e
    | .ok r =>
      match processChunks opts r.2 cs with
      | .error e => .error e
      | .ok r' => .ok (r.1 ++ r'.1, r'.2)

/-- End-of-stream epilogue, source lines 144-157: a still-dropping line
fires its `onTooLongLine` callback and nothing more is yielded; otherwise
trailing bytes are yielded as a final line (`flushFinalPartialLine`) or
reported to `onFinalPartialLine`.  Produces at most one final event. -/
def finishReadLines (opts : ReadLinesOptions) (st : RLState) : Option RLEvent :=
  if st.dropping then
    match opts.maxLineBytes with
    | some m => some (.tooLong st.dropped m)
    | none => none
  else if st.parts.isEmpty then none
  else if opts.flushFinalPartialLine then some (.line st.parts)
  else some (.finalPartial st.parts)

/-- The whole of `readLines opts` over a list of byte chunks: the events of
the main loop plus the at-most-one end-of-stream event.  The guard mirrors
the option validation on line 50 (`maxLineBytes <= 0` throws; on `Nat` that
is `some 0`). -/
def readLinesRun (opts : ReadLinesOptions) (chunks : List (List Nat)) :
    Except String (List RLEvent × Option RLEvent) :=
  if opts.maxLineBytes = some 0 then .error "Invalid maxLineBytes"
  else
    match processChunks opts rlInit chunks with
    | .error e => .error e
    | .ok (evs, st) => .ok (evs, finishReadLines opts st)

/-- Reinserts the newline each loop event consumed. -/
def reconEvents (evs : List RLEvent) : List Nat :=
  (evs.map (fun e => e.content ++ [10])).flatten

def finContent : Option RLEvent → List Nat
  | none => []
  | some e => e.content

/-- The bytes of the line currently being assembled (or discarded). -/
def rlPending (st : RLState) : List Nat :=
  if st.dropping then st.dropped else st.parts

/-- State invariant of the reader loop: while dropping, the retained-parts
buffer is empty (it was cleared when dropping began) and a `maxLineBytes`
limit is configured (dropping only ever starts under one); while not
dropping, the dropped-bytes accumulator is empty. -/
def RLInv (opts : ReadLinesOptions) (st : RLState) : Prop :=
  (st.dropping = true → st.parts = [] ∧ opts.maxLineBytes ≠ none)
  ∧ (st.dropping = false → st.dropped = [])

theorem rlInv_init (opts : ReadLinesOptions) : RLInv opts rlInit := by
  constructor <;> intro h <;> simp [rlInit] at h ⊢

theorem splitNl_cons_nl (bs : List Nat) :
    splitNl (10 :: bs) = ([] :: (splitNl bs).1, (splitNl bs).2) := by
  simp [splitNl]

theorem splitNl_cons_ne (b : Nat) (bs : List Nat) (hb : ¬b = 10) :
    splitNl (b :: bs) =
      match splitNl bs with
      | (s :: ss, t) => ((b :: s) :: ss, t)
      | ([], t) => ([], b :: t) := by
  simp [splitNl, hb]

theorem splitNl_flatten (l : List Nat) :
    ((splitNl l).1.map (fun s => s ++ [10])).flatten ++ (splitNl l).2 = l := by
  induction l with
  | nil => simp [splitNl]
  | cons b bs ih =>
    by_cases hb : b = 10
    · subst hb
      rw [splitNl_cons_nl]
      simp only [List.map_cons, List.flatten_cons, List.nil_append, List.singleton_append,
        List.append_assoc] at ih ⊢
      exact congrArg (List.cons 10) ih
    · rw [splitNl_cons_ne b bs hb]
      cases hr : splitNl bs with
      | mk segs tail =>
        rw [hr] at ih
        cases segs with
        | nil =>
          simp only [List.map_nil, List.flatten_nil, List.nil_append] at ih ⊢
          rw [ih]
        | cons s ss =>
          simp only [List.map_cons, List.flatten_cons, List.cons_append,
            List.append_assoc, List.singleton_append] at ih ⊢
          rw [ih]

theorem processSeg_spec (opts : ReadLinesOptions) (st : RLState) (seg : List Nat)
    (evs : List RLEvent) (st' : RLState) (hInv : RLInv opts st)
    (h : processSeg opts st seg = .ok (evs, st')) :
    RLInv opts st'
    ∧ rlPending st ++ seg ++ [10] = reconEvents evs ++ rlPending st' := by
  cases hd : st.dropping with
  | true =>
    obtain ⟨hparts, hmax⟩ := hInv.1 hd
    cases hm : opts.maxLineBytes with
    | none => exact absurd hm hmax
    | some m =>
      simp only [processSeg, hd, if_true, hm, Except.ok.injEq] at h
      obtain ⟨hevs, hst⟩ := Prod.mk.injEq .. ▸ h
      subst hevs; subst hst
      refine ⟨⟨by simp, by simp⟩, ?_⟩
      simp [rlPending, hd, reconEvents, RLEvent.content]
  | false =>
    have hdropped := hInv.2 hd
    cases hm : opts.maxLineBytes with
    | none =>
      simp only [processSeg, hd, Bool.false_eq_true, if_false, hm, Except.ok.injEq] at h
      obtain ⟨hevs, hst⟩ := Prod.mk.injEq .. ▸ h
      subst hevs; subst hst
      refine ⟨⟨by simp, by simp [hdropped]⟩, ?_⟩
      simp [rlPending, hd, reconEvents, RLEvent.content]
    | some m =>
      by_cases hlen : m < (st.parts ++ seg).length
      · cases hmode : opts.tooLongLine with
        | error =>
          simp only [processSeg, hd, Bool.false_eq_true, if_false, hm,
            if_pos hlen, hmode] at h
          exact Except.noConfusion h
        | skip =>
          simp only [processSeg, hd, Bool.false_eq_true, if_false, hm, if_pos hlen,
            hmode, Except.ok.injEq] at h
          obtain ⟨hevs, hst⟩ := Prod.mk.injEq .. ▸ h
          subst hevs; subst hst
          refine ⟨⟨by simp, by simp [hdropped]⟩, ?_⟩
          simp [rlPending, hd, reconEvents, RLEvent.content]
      · simp only [processSeg, hd, Bool.false_eq_true, if_false, hm, if_neg hlen,
          Except.ok.injEq] at h
        obtain ⟨hevs, hst⟩ := Prod.mk.injEq .. ▸ h
        subst hevs; subst hst
        refine ⟨⟨by simp, by simp [hdropped]⟩, ?_⟩
        simp [rlPending, hd, reconEvents, RLEvent.content]

theorem processTail_spec (opts : ReadLinesOptions) (st : RLState) (tail : List Nat)
    (st' : RLState) (hInv : RLInv opts st)
    (h : processTail opts st tail = .ok st') :
    RLInv opts st' ∧ rlPending st ++ tail = rlPending st' := by
  cases hd : st.dropping with
  | true =>
    obtain ⟨hparts, hmax⟩ := hInv.1 hd
    simp only [processTail, hd, if_true, Except.ok.injEq] at h
    subst h
    refine ⟨⟨fun _ => ⟨hparts, hmax⟩, by simp⟩, ?_⟩
    simp [rlPending, hd]
  | false =>
    have hdropped := hInv.2 hd
    cases hm : opts.maxLineBytes with
    | none =>
      simp only [processTail, hd, Bool.false_eq_true, if_false, hm, Except.ok.injEq] at h
      subst h
      refine ⟨⟨by simp, by simp [hdropped]⟩, ?_⟩
      simp [rlPending, hd]
    | some m =>
      by_cases hlen : m < (st.parts ++ tail).length
      · cases hmode : opts.tooLongLine with
        | error =>
          simp only [processTail, hd, Bool.false_eq_true, if_false, hm,
            if_pos hlen, hmode] at h
          exact Except.noConfusion h
        | skip =>
          simp only [processTail, hd, Bool.false_eq_true, if_false, hm, if_pos hlen,
            hmode, Except.ok.injEq] at h
          subst h
          refine ⟨⟨by simp [hm], by simp⟩, ?_⟩
          simp [rlPending, hd]
      · simp only [processTail, hd, Bool.false_eq_true, if_false, hm, if_neg hlen,
          Except.ok.injEq] at h
        subst h
        refine ⟨⟨by simp, by simp [hdropped]⟩, ?_⟩
        simp [rlPending, hd]

theorem processSegs_spec (opts : ReadLinesOptions) :
    ∀ (segs : List (List Nat)) (st : RLState) (evs : List RLEvent) (st' : RLState),
    RLInv opts st → processSegs opts st segs = .ok (evs, st') →
    RLInv opts st'
    ∧ rlPending st ++ (segs.map (fun s => s ++ [10])).flatten
        = reconEvents evs ++ rlPending st' := by
  intro segs
  induction segs with
  | nil =>
    intro st evs st' hInv h
    simp only [processSegs, Except.ok.injEq] at h
    obtain ⟨hevs, hst⟩ := Prod.mk.injEq .. ▸ h
    subst hevs; subst hst
    simpa [reconEvents] using hInv
  | cons seg rest ih =>
    intro st evs st' hInv h
    cases hseg : processSeg opts st seg with
    | error e => simp [processSegs, hseg] at h
    | ok r =>
      cases hrest : processSegs opts r.2 rest with
      | error e => simp [processSegs, hseg, hrest] at h
      | ok r' =>
        simp only [processSegs, hseg, hrest, Except.ok.injEq] at h
        obtain ⟨hevs, hst⟩ := Prod.mk.injEq .. ▸ h
        have h1 := processSeg_spec opts st seg r.1 r.2 hInv (by rw [hseg])
        have h2 := ih r.2 r'.1 r'.2 h1.1 (by rw [hrest])
        refine ⟨hst ▸ h2.1, ?_⟩
        subst hevs; subst hst
        simp only [List.map_cons, List.flatten_cons, reconEvents, List.map_append,
          List.flatten_append] at h1 h2 ⊢
        calc rlPending st ++ ((seg ++ [10]) ++ (rest.map (fun s => s ++ [10])).flatten)
            = (rlPending st ++ seg ++ [10]) ++ (rest.map (fun s => s ++ [10])).flatten := by
              simp [List.append_assoc]
          _ = ((r.1.map (fun e => e.content ++ [10])).flatten ++ rlPending r.2)
                ++ (rest.map (fun s => s ++ [10])).flatten := by
              rw [show rlPending st ++ seg ++ [10]
                  = (r.1.map (fun e => e.content ++ [10])).flatten ++ rlPending r.2 from h1.2]
          _ = (r.1.map (fun e => e.content ++ [10])).flatten
                ++ (rlPending r.2 ++ (rest.map (fun s => s ++ [10])).flatten) := by
              simp [List.append_assoc]
          _ = (r.1.map (fun e => e.content ++ [10])).flatten
                ++ ((r'.1.map (fun e => e.content ++ [10])).flatten ++ rlPending r'.2) := by
              rw [h2.2]
          _ = _ := by simp [List.append_assoc]

theorem processChunk_spec (opts : ReadLinesOptions) (st : RLState) (chunk : List Nat)
    (evs : List RLEvent) (st' : RLState) (hInv : RLInv opts st)
    (h : processChunk opts st chunk = .ok (evs, st')) :
    RLInv opts st' ∧ rlPending st ++ chunk = reconEvents evs ++ rlPending st' := by
  cases hsegs : processSegs opts st (splitNl chunk).1 with
  | error e => simp [processChunk, hsegs] at h
  | ok r =>
    cases htail : processTail opts r.2 (splitNl chunk).2 with
    | error e => simp [processChunk, hsegs, htail] at h
    | ok st'' =>
      simp only [processChunk, hsegs, htail, Except.ok.injEq] at h
      obtain ⟨hevs, hst⟩ := Prod.mk.injEq .. ▸ h
      have h1 := processSegs_spec opts (splitNl chunk).1 st r.1 r.2 hInv (by rw [hsegs])
      have h2 := processTail_spec opts r.2 (splitNl chunk).2 st'' h1.1 (by rw [htail])
      subst hevs; subst hst
      refine ⟨h2.1, ?_⟩
      conv_lhs => rw [← splitNl_flatten chunk]
      calc rlPending st
            ++ (((splitNl chunk).1.map (fun s => s ++ [10])).flatten ++ (splitNl chunk).2)
          = (rlPending st ++ ((splitNl chunk).1.map (fun s => s ++ [10])).flatten)
              ++ (splitNl chunk).2 := by simp [List.append_assoc]
        _ = (reconEvents r.1 ++ rlPending r.2) ++ (splitNl chunk).2 := by rw [h1.2]
        _ = reconEvents r.1 ++ (rlPending r.2 ++ (splitNl chunk).2) := by
            simp [List.append_assoc]
        _ = reconEvents r.1 ++ rlPending st'' := by rw [h2.2]

theorem processChunks_spec (opts : ReadLinesOptions) :
    ∀ (chunks : List (List Nat)) (st : RLState) (evs : List RLEvent) (st' : RLState),
    RLInv opts st → processChunks opts st chunks = .ok (evs, st') →
    RLInv opts st'
    ∧ rlPending st ++ chunks.flatten = reconEvents evs ++ rlPending st' := by
  intro chunks
  induction chunks with
  | nil =>
    intro st evs st' hInv h
    simp only [processChunks, Except.ok.injEq] at h
    obtain ⟨hevs, hst⟩ := Prod.mk.injEq .. ▸ h
    subst hevs; subst hst
    simpa [reconEvents] using hInv
  | cons c cs ih =>
    intro st evs st' hInv h
    cases hc : processChunk opts st c with
    | error e => simp [processChunks, hc] at h
    | ok r =>
      cases hcs : processChunks opts r.2 cs with
      | error e => simp [processChunks, hc, hcs] at h
      | ok r' =>
        simp only [processChunks, hc, hcs, Except.ok.injEq] at h
        obtain ⟨hevs, hst⟩ := Prod.mk.injEq .. ▸ h
        have h1 := processChunk_spec opts st c r.1 r.2 hInv (by rw [hc])
        have h2 := ih r.2 r'.1 r'.2 h1.1 (by rw [hcs])
        subst hevs; subst hst
        refine ⟨h2.1, ?_⟩
        simp only [List.flatten_cons, reconEvents, List.map_append, List.flatten_append]
          at h1 h2 ⊢
        calc rlPending st ++ (c ++ cs.flatten)
            = (rlPending st ++ c) ++ cs.flatten := by simp [List.append_assoc]
          _ = ((r.1.map (fun e => e.content ++ [10])).flatten ++ rlPending r.2)
                ++ cs.flatten := by rw [h1.2]
          _ = (r.1.map (fun e => e.content ++ [10])).flatten
                ++ (rlPending r.2 ++ cs.flatten) := by simp [List.append_assoc]
          _ = (r.1.map (fun e => e.content ++ [10])).flatten
                ++ ((r'.1.map (fun e => e.content ++ [10])).flatten ++ rlPending r'.2) := by
              rw [h2.2]
          _ = _ := by simp [List.append_assoc]

theorem finishReadLines_content (opts : ReadLinesOptions) (st : RLState)
    (hInv : RLInv opts st) :
    finContent (finishReadLines opts st) = rlPending st := by
  cases hd : st.dropping with
  | true =>
    obtain ⟨-, hmax⟩ := hInv.1 hd
    cases hm : opts.maxLineBytes with
    | none => exact absurd hm hmax
    | some m => simp [finishReadLines, hd, hm, finContent, RLEvent.content, rlPending]
  | false =>
    by_cases hp : st.parts.isEmpty
    · simp [finishReadLines, hd, hp, finContent, rlPending, List.isEmpty_iff.mp hp]
    · by_cases hf : opts.flushFinalPartialLine
      · simp [finishReadLines, hd, hp, hf, finContent, RLEvent.content, rlPending]
      · simp [finishReadLines, hd, hp, hf, finContent, RLEvent.content, rlPending]

/-- C2: whenever `readLines` completes normally, re-concatenating everything
it produced — the yielded lines with their removed newline separators
re-inserted, the byte content of every line dropped under the too-long-line
skip policy (with its terminating newline when one was consumed), and the
bytes of a suppressed or flushed final partial line — reproduces the
original stream exactly.  Equivalently, the yielded lines reproduce the
stream minus exactly the dropped-line bytes and the suppressed final
partial line. -/
theorem readLines_reconstructs_stream (opts : ReadLinesOptions) (chunks : List (List Nat))
    (evs : List RLEvent) (fin : Option RLEvent)
    (h : readLinesRun opts chunks = .ok (evs, fin)) :
    chunks.flatten = reconEvents evs ++ finContent fin := by
  by_cases hv : opts.maxLineBytes = some 0
  · simp [readLinesRun, hv] at h
  · cases hp : processChunks opts rlInit chunks with
    | error e => simp [readLinesRun, hv, hp] at h
    | ok r =>
      simp only [readLinesRun, hv, if_false, hp, Except.ok.injEq] at h
      obtain ⟨hevs, hfin⟩ := Prod.mk.injEq .. ▸ h
      have hmain := processChunks_spec opts chunks rlInit r.1 r.2 (rlInv_init opts)
        (by rw [hp])
      subst hevs; subst hfin
      rw [finishReadLines_content opts r.2 hmain.1]
      simpa [rlPending, rlInit] using hmain.2

/-- Witness for `readLines_reconstructs_stream`: the stream `"ab" ++ "cd\nef"`
read with `maxLineBytes = 3`, skip policy, flush-final-partial enabled. -/
theorem readLines_reconstructs_stream_witness :
    readLinesRun ⟨some 3, .skip, true⟩ [[97, 98], [99, 100, 10, 101, 102]]
        = .ok ([.tooLong [97, 98, 99, 100] 3], some (.line [101, 102]))
    ∧ ([[97, 98], [99, 100, 10, 101, 102]] : List (List Nat)).flatten
        = reconEvents [.tooLong [97, 98, 99, 100] 3]
            ++ finContent (some (.line [101, 102])) :=
  ⟨by rfl,
    readLines_reconstructs_stream ⟨some 3, .skip, true⟩ [[97, 98], [99, 100, 10, 101, 102]]
      [.tooLong [97, 98, 99, 100] 3] (some (.line [101, 102])) (by rfl)⟩

/-! ### Skip-policy characterization of `readLines`

With `tooLongLine: 'skip'` and a positive `maxLineBytes = m`, the loop state
reached after any prefix of the input is fully determined by the bytes of
the line currently being assembled: the reader is dropping that line if and
only if it is already longer than `m`. -/

/-- The canonical skip-policy state holding the (possibly oversized)
current-line bytes `w`. -/
def mkSt (m : Nat) (w : List Nat) : RLState :=
  if m < w.length then ⟨[], true, w⟩ else ⟨w, false, []⟩

/-- The event `readLines` produces for one newline-terminated line under the
skip policy: the too-long callback for an oversized line (with the observed
byte count `s.length` and the limit `m`), a yielded line otherwise. -/
def specOne (m : Nat) (s : List Nat) : RLEvent :=
  if m < s.length then .tooLong s m else .line s

/-- Events for the segments of one chunk processed from pending bytes `w`
(the pending bytes belong to the first segment). -/
def specSegsFrom (m : Nat) : List Nat → List (List Nat) → List RLEvent
  | _, [] => []
  | w, s :: ss => specOne m (w ++ s) :: specSegsFrom m [] ss

/-- Pending bytes left for the next chunk after processing these segments. -/
def pendAfter : List Nat → List (List Nat) → List Nat
  | w, [] => w
  | _, _ :: ss => pendAfter [] ss

def skipOpts (m : Nat) (flush : Bool) : ReadLinesOptions := ⟨some m, .skip, flush⟩

/-- End-of-stream event under the skip policy, as a function of the bytes
after the stream's last newline. -/
def skipSpecFinal (m : Nat) (flush : Bool) (s : List Nat) : Option RLEvent :=
  let t := (splitNl s).2
  if t.isEmpty then none
  else if m < t.length then some (.tooLong t m)
  else if flush then some (.line t) else some (.finalPartial t)

theorem specSegsFrom_nil_pending (m : Nat) :
    ∀ segs : List (List Nat), specSegsFrom m [] segs = segs.map (specOne m) := by
  intro segs
  induction segs with
  | nil => simp [specSegsFrom]
  | cons s ss ih => simp [specSegsFrom, ih]

theorem pendAfter_eq (w : List Nat) (segs : List (List Nat)) :
    pendAfter w segs = if segs.isEmpty then w else [] := by
  cases segs with
  | nil => simp [pendAfter]
  | cons s ss =>
    simp only [pendAfter, List.isEmpty_cons, Bool.false_eq_true, if_false]
    induction ss with
    | nil => simp [pendAfter]
    | cons x xs ih => simpa [pendAfter] using ih

theorem processSeg_skip (m : Nat) (flush : Bool) (w seg : List Nat) :
    processSeg (skipOpts m flush) (mkSt m w) seg
      = .ok ([specOne m (w ++ seg)], mkSt m []) := by
  have hmk : mkSt m ([] : List Nat) = ⟨[], false, []⟩ := by simp [mkSt]
  by_cases hw : m < w.length
  · have hlong : m < w.length + seg.length := by omega
    simp [mkSt, hw, processSeg, skipOpts, specOne, hlong, hmk]
  · by_cases hlen : m < w.length + seg.length
    · simp [mkSt, hw, processSeg, skipOpts, specOne, hlen, hmk]
    · simp [mkSt, hw, processSeg, skipOpts, specOne, hlen, hmk]

theorem processTail_skip (m : Nat) (flush : Bool) (w tail : List Nat) :
    processTail (skipOpts m flush) (mkSt m w) tail = .ok (mkSt m (w ++ tail)) := by
  by_cases hw : m < w.length
  · have hlong : m < w.length + tail.length := by omega
    simp [mkSt, hw, processTail, skipOpts, hlong]
  · by_cases hlen : m < w.length + tail.length
    · simp [mkSt, hw, processTail, skipOpts, hlen]
    · simp [mkSt, hw, processTail, skipOpts, hlen]

theorem processSegs_skip (m : Nat) (flush : Bool) :
    ∀ (segs : List (List Nat)) (w : List Nat),
    processSegs (skipOpts m flush) (mkSt m w) segs
      = .ok (specSegsFrom m w segs, mkSt m (pendAfter w segs)) := by
  intro segs
  induction segs with
  | nil => intro w; simp [processSegs, specSegsFrom, pendAfter]
  | cons s ss ih =>
    intro w
    simp [processSegs, processSeg_skip m flush w s, ih [], specSegsFrom, pendAfter]

theorem processChunk_skip (m : Nat) (flush : Bool) (w c : List Nat) :
    processChunk (skipOpts m flush) (mkSt m w) c
      = .ok (specSegsFrom m w (splitNl c).1,
          mkSt m (pendAfter w (splitNl c).1 ++ (splitNl c).2)) := by
  simp [processChunk, processSegs_skip m flush (splitNl c).1 w, processTail_skip]

theorem splitNl_tail_no_nl : ∀ l : List Nat, 10 ∉ (splitNl l).2 := by
  intro l
  induction l with
  | nil => simp [splitNl]
  | cons b bs ih =>
    by_cases hb : b = 10
    · subst hb
      rw [splitNl_cons_nl]
      exact ih
    · rw [splitNl_cons_ne b bs hb]
      cases hr : splitNl bs with
      | mk segs tail =>
        rw [hr] at ih
        cases segs with
        | nil =>
          simp only [List.mem_cons, not_or]
          exact ⟨fun h => hb h.symm, ih⟩
        | cons s ss => exact ih

theorem splitNl_of_no_nl (w : List Nat) (hw : 10 ∉ w) : splitNl w = ([], w) := by
  induction w with
  | nil => simp [splitNl]
  | cons b bs ih =>
    have hb : ¬b = 10 := fun h => hw (h ▸ List.mem_cons_self b bs)
    have hbs : 10 ∉ bs := fun h => hw (List.mem_cons_of_mem b h)
    rw [splitNl_cons_ne b bs hb, ih hbs]

theorem splitNl_prepend_no_nl :
    ∀ (w u : List Nat), 10 ∉ w →
    splitNl (w ++ u) =
      match splitNl u with
      | (s :: ss, t) => ((w ++ s) :: ss, t)
      | ([], t) => ([], w ++ t) := by
  intro w
  induction w with
  | nil =>
    intro u _
    cases hr : splitNl u with
    | mk segs t => cases segs <;> simp [hr]
  | cons a w ih =>
    intro u hw
    have ha : ¬a = 10 := fun h => hw (h ▸ List.mem_cons_self a w)
    have hw' : 10 ∉ w := fun h => hw (List.mem_cons_of_mem a h)
    rw [List.cons_append, splitNl_cons_ne a (w ++ u) ha, ih u hw']
    cases hr : splitNl u with
    | mk segs t => cases segs <;> simp [hr]

theorem splitNl_append_nl :
    ∀ (w r : List Nat), 10 ∉ w →
    splitNl (w ++ 10 :: r) = (w :: (splitNl r).1, (splitNl r).2) := by
  intro w
  induction w with
  | nil => intro r _; rw [List.nil_append, splitNl_cons_nl]
  | cons a w ih =>
    intro r hw
    have ha : ¬a = 10 := fun h => hw (h ▸ List.mem_cons_self a w)
    have hw' : 10 ∉ w := fun h => hw (List.mem_cons_of_mem a h)
    rw [List.cons_append, splitNl_cons_ne a (w ++ 10 :: r) ha, ih r hw']

/-- Processing one chunk `c` from pending bytes `w` accounts for exactly the
newline-terminated lines completed inside `c`; the remaining stream `u` sees
only the new pending bytes. -/
theorem skipDecompose (m : Nat) :
    ∀ (c w u : List Nat), 10 ∉ w →
    ((splitNl (w ++ (c ++ u))).1.map (specOne m)
        = specSegsFrom m w (splitNl c).1
          ++ ((splitNl ((pendAfter w (splitNl c).1 ++ (splitNl c).2) ++ u)).1.map (specOne m)))
    ∧ (splitNl (w ++ (c ++ u))).2
        = (splitNl ((pendAfter w (splitNl c).1 ++ (splitNl c).2) ++ u)).2 := by
  intro c
  induction c with
  | nil =>
    intro w u hw
    simp [splitNl, specSegsFrom, pendAfter]
  | cons b c' ih =>
    intro w u hw
    by_cases hb : b = 10
    · subst hb
      have hsp : w ++ (10 :: c' ++ u) = w ++ 10 :: (c' ++ u) := by simp
      have hnl := splitNl_append_nl w (c' ++ u) hw
      have hih := ih [] u (by simp)
      simp only [List.nil_append] at hih
      rw [splitNl_cons_nl]
      constructor
      · rw [hsp, hnl]
        simp only [List.map_cons, specSegsFrom, pendAfter, List.append_nil, List.nil_append,
          List.cons_append]
        rw [hih.1]
      · rw [hsp, hnl]
        simp only [specSegsFrom, pendAfter, List.nil_append]
        rw [hih.2]
    · have hw' : (10 : Nat) ∉ w ++ [b] := by
        intro hmem
        rcases List.mem_append.mp hmem with h | h
        · exact hw h
        · simp at h; exact hb h.symm
      have hsp : w ++ (b :: c') ++ u = (w ++ [b]) ++ (c' ++ u) := by simp
      have hsp2 : w ++ ((b :: c') ++ u) = (w ++ [b]) ++ (c' ++ u) := by simp
      have hih := ih (w ++ [b]) u hw'
      rw [splitNl_cons_ne b c' hb]
      cases hr : splitNl c' with
      | mk segs t =>
        rw [hr] at hih
        cases segs with
        | nil =>
          simp only [specSegsFrom, pendAfter, List.nil_append] at hih ⊢
          constructor
          · rw [hsp2, hih.1]
            simp [List.append_assoc]
          · rw [hsp2, hih.2]
            simp [List.append_assoc]
        | cons s ss =>
          simp only [specSegsFrom, pendAfter, List.nil_append] at hih ⊢
          constructor
          · rw [hsp2, hih.1]
            simp [List.append_assoc]
          · rw [hsp2, hih.2]

/-- Skip-policy run of the whole loop, from arbitrary newline-free pending
bytes: the events are exactly one event per newline-terminated line of the
remaining stream, and the final state holds the bytes after its last
newline. -/
theorem processChunks_skip (m : Nat) (flush : Bool) :
    ∀ (chunks : List (List Nat)) (w : List Nat), 10 ∉ w →
    processChunks (skipOpts m flush) (mkSt m w) chunks
      = .ok ((splitNl (w ++ chunks.flatten)).1.map (specOne m),
          mkSt m ((splitNl (w ++ chunks.flatten)).2)) := by
  intro chunks
  induction chunks with
  | nil =>
    intro w hw
    simp [processChunks, splitNl_of_no_nl w hw]
  | cons c cs ih =>
    intro w hw
    have hw' : (10 : Nat) ∉ pendAfter w (splitNl c).1 ++ (splitNl c).2 := by
      intro hmem
      rcases List.mem_append.mp hmem with h | h
      · rw [pendAfter_eq] at h
        by_cases hseg : (splitNl c).1.isEmpty
        · rw [if_pos hseg] at h; exact hw h
        · rw [if_neg hseg] at h; simp at h
      · exact splitNl_tail_no_nl c h
    have hdec := skipDecompose m c w cs.flatten hw
    simp only [List.flatten_cons, processChunks, processChunk_skip m flush w c, ih _ hw']
    rw [hdec.1, hdec.2]

theorem finishReadLines_skip (m : Nat) (flush : Bool) (t : List Nat) :
    finishReadLines (skipOpts m flush) (mkSt m t)
      = (if t.isEmpty then none
        else if m < t.length then some (.tooLong t m)
        else if flush then some (.line t) else some (.finalPartial t)) := by
  by_cases ht : m < t.length
  · have hne : ¬t.isEmpty := by
      cases t with
      | nil => simp at ht
      | cons a l => simp
    simp [mkSt, ht, finishReadLines, skipOpts, hne]
  · simp only [mkSt, ht, if_false]
    by_cases hte : t.isEmpty
    · simp [finishReadLines, skipOpts, hte, ht]
    · simp [finishReadLines, skipOpts, hte, ht]

/-- C7: with a `maxLineBytes` limit `m` and `tooLongLine: 'skip'`,
`readLines` produces exactly one event per newline-terminated line of the
stream: for a line of more than `m` bytes it yields nothing and invokes the
too-long callback exactly once, with the observed byte count (the line's
full byte length, necessarily `> m`) and the configured limit; for any
other line it yields the line; and scanning resumes at the byte after each
newline.  Trailing bytes after the last newline behave likewise at end of
stream (dropped lines report the callback, retained ones follow the
final-partial-line policy). -/
theorem readLines_skip_drops_long_lines (m : Nat) (flush : Bool)
    (chunks : List (List Nat)) (hm : 0 < m) :
    readLinesRun (skipOpts m flush) chunks
      = .ok ((splitNl chunks.flatten).1.map (specOne m),
          skipSpecFinal m flush chunks.flatten) := by
  have hguard : ¬(skipOpts m flush).maxLineBytes = some 0 := by
    simp only [skipOpts, Option.some.injEq]
    omega
  have hinit : rlInit = mkSt m [] := by simp [rlInit, mkSt]
  rw [readLinesRun, if_neg hguard, hinit,
    processChunks_skip m flush chunks [] (by simp)]
  simp only [List.nil_append]
  rw [finishReadLines_skip]
  rfl

/-- Witness for `readLines_skip_drops_long_lines`: the stream `"abcd\nef"`
with `maxLineBytes = 3` yields only `"ef"` and reports the dropped 4-byte
line once. -/
theorem readLines_skip_drops_long_lines_witness :
    (0 < 3)
    ∧ readLinesRun (skipOpts 3 true) [[97, 98, 99, 100, 10, 101, 102]]
        = .ok ([.tooLong [97, 98, 99, 100] 3], some (.line [101, 102])) :=
  ⟨by decide,
    (readLines_skip_drops_long_lines 3 true [[97, 98, 99, 100, 10, 101, 102]]
      (by decide)).trans (by rfl)⟩

/-- C8: when the main loop ends in a non-dropping state, the end-of-stream
behavior is exactly: trailing undelimited bytes are yielded as a final line
when `flushFinalPartialLine` is true, reported to the final-partial-line
callback (with their byte count) and not yielded when it is false, and a
stream with no bytes after its last newline produces no trailing event at
all — never an empty final line. -/
theorem readLines_final_partial_line_policy (opts : ReadLinesOptions)
    (chunks : List (List Nat)) (evs : List RLEvent) (st : RLState)
    (hp : processChunks opts rlInit chunks = .ok (evs, st))
    (hdrop : st.dropping = false)
    (hv : opts.maxLineBytes ≠ some 0) :
    readLinesRun opts chunks = .ok (evs,
      if st.parts.isEmpty then none
      else if opts.flushFinalPartialLine then some (.line st.parts)
      else some (.finalPartial st.parts)) := by
  rw [readLinesRun, if_neg hv, hp]
  simp [finishReadLines, hdrop]

/-- Witness for `readLines_final_partial_line_policy`: `"a\nb"` yields
`["a", "b"]`, `"a\n"` yields just `["a"]`, and with
`flushFinalPartialLine = false` the trailing `"b"` becomes a callback. -/
theorem readLines_final_partial_line_policy_witness :
    readLinesRun ⟨none, .error, true⟩ [[97, 10, 98]]
        = .ok ([.line [97]], some (.line [98]))
    ∧ readLinesRun ⟨none, .error, true⟩ [[97, 10]]
        = .ok ([.line [97]], none)
    ∧ readLinesRun ⟨none, .error, false⟩ [[97, 10, 98]]
        = .ok ([.line [97]], some (.finalPartial [98])) :=
  ⟨(readLines_final_partial_line_policy ⟨none, .error, true⟩ [[97, 10, 98]]
      [.line [97]] ⟨[98], false, []⟩ (by rfl) rfl (by simp)).trans (by rfl),
    (readLines_final_partial_line_policy ⟨none, .error, true⟩ [[97, 10]]
      [.line [97]] ⟨[], false, []⟩ (by rfl) rfl (by simp)).trans (by rfl),
    (readLines_final_partial_line_policy ⟨none, .error, false⟩ [[97, 10, 98]]
      [.line [97]] ⟨[98], false, []⟩ (by rfl) rfl (by simp)).trans (by rfl)⟩

/-! ## Import orchestrator (src/domain/import.ts, `importOsm`, ndjson adapter)

The orchestrator is modelled per record: the input is the list of lines the
line reader yields, and the platform collaborators that `importOsm` calls
are parameters — `jsonParse` for `JSON.parse` (returning `none` on a parse
error), `normalize` for `normalizeInputToDoc` (the feature-normalizer
collaborator, which can throw), `sizeOf` for
`Buffer.byteLength(JSON.stringify doc)` (never consulted here because the
ndjson adapter always passes the positive estimate `line.length + 1`), and
`upload` for `dbClient.importDocuments` on one batch.  Concurrent
dispatches all settle before the final error check and the counters are
commutative sums, so the dispatch results are folded sequentially. -/

/-- The fields of `OsmFeatureDoc` the orchestrator reads.  `geomType` is
`doc.geometry.type` when that is a string (`none` models a missing or
non-string value); `tags` is the tag map as an association list. -/
structure OsmDoc where
  key : String
  geomType : Option String
  tags : List (String × String)
deriving Repr, DecidableEq

/-- `tags.amenity` and friends: first binding of the key, if any. -/
def tagsGet (tags : List (String × String)) (k : String) : Option String :=
  (tags.find? (fun p => p.1 = k)).map Prod.snd

/-- A tag that is present with a non-empty value
(`typeof v === 'string' && v.length > 0`). -/
def tagNonEmpty (tags : List (String × String)) (k : String) : Bool :=
  match tagsGet tags k with
  | some v => 0 < v.length
  | none => false

inductive ImportProfile where
  | all
  | places
  | amenities
  | recreation
deriving Repr, DecidableEq

def recreationNaturalValues : List String :=
  ["wood", "water", "wetland", "beach", "grassland", "heath", "scrub"]

def recreationLanduseValues : List String :=
  ["forest", "meadow", "grass", "recreation_ground", "village_green", "allotments"]

/-- `isRecreationFeature` (src/osm/import-profile.ts). -/
def isRecreationFeature (tags : List (String × String)) : Bool :=
  if tagNonEmpty tags "leisure" then true
  else if tagNonEmpty tags "waterway" then true
  else if (match tagsGet tags "natural" with
      | some v => recreationNaturalValues.contains v
      | none => false) then true
  else if (match tagsGet tags "landuse" with
      | some v => recreationLanduseValues.contains v
      | none => false) then true
  else if tagsGet tags "boundary" = some "national_park"
      ∨ tagsGet tags "boundary" = some "protected_area" then true
  else false

/-- `shouldImportFeatureForProfile` (src/osm/import-profile.ts). -/
def shouldImportFeatureForProfile (doc : OsmDoc) (profile : ImportProfile) : Bool :=
  if profile = .all then true
  else if profile = .amenities then tagNonEmpty doc.tags "amenity"
  else if profile = .recreation then isRecreationFeature doc.tags
  else tagNonEmpty doc.tags "amenity" || isRecreationFeature doc.tags

/-- `arangoSupportedGeoJsonGeometryTypes` (src/osm/geojson.ts). -/
def arangoSupportedGeoJsonGeometryTypes : List String :=
  ["Point", "MultiPoint", "LineString", "MultiLineString", "Polygon", "MultiPolygon"]

def isArangoSupportedGeoJsonGeometryType (t : String) : Bool :=
  arangoSupportedGeoJsonGeometryTypes.contains t

inductive UnsupportedGeometryMode where
  | skip
  | keep
  | error
deriving Repr, DecidableEq

inductive InvalidJsonMode where
  | error
  | skip
deriving Repr, DecidableEq

/-- `geometryTypeCounts[k] = (geometryTypeCounts[k] ?? 0) + 1` on a
`Record<string, number>`; insertion order is preserved as JS objects do for
string keys. -/
def bumpCount : List (String × Nat) → String → List (String × Nat)
  | [], k => [(k, 1)]
  | (k', n) :: rest, k =>
    if k' = k then (k', n + 1) :: rest else (k', n) :: bumpCount rest k

/-- `import.ts` lines 190-191: the tracked geometry type, `'unknown'` when
`doc.geometry.type` is not a non-empty string. -/
def geometryTypeOf (doc : OsmDoc) : String :=
  match doc.geomType with
  | some s => if 0 < s.length then s else "unknown"
  | none => "unknown"

/-- The counters of `importOsm` the reading loop mutates (all start at 0). -/
structure RunCounters where
  seen : Nat
  skippedByProfile : Nat
  skippedUnsupportedGeometry : Nat
  skippedTooLongLines : Nat
  skippedInvalidJsonLines : Nat
  maxInvalidJsonLineBytes : Nat
  geometryTypeCounts : List (String × Nat)
  unsupportedGeometryTypeCounts : List (String × Nat)
deriving Repr, DecidableEq

def initCounters : RunCounters := ⟨0, 0, 0, 0, 0, 0, [], []⟩

/-- The source's unsupported-geometry error message (lines 210-214). -/
def unsupportedGeometryMessage (g : String) : String :=
  "Unsupported GeoJSON geometry type: " ++ g
    ++ ". ArangoDB geo indexes / Geo utility functions require GeoJSON Geometry "
    ++ "Objects like Point/Polygon/MultiPolygon. "
    ++ "Use --unsupported-geometry=skip (default) or --unsupported-geometry=keep."

/-- `trackAndMaybeSkip` (lines 189-220): bumps `seen` and the geometry-type
count, then applies the profile filter, then classifies the geometry type
under the configured policy.  `.ok (true, c)` is "skip this record",
`.ok (false, c)` is "import it"; `.error (msg, c)` models the throw under
the `error` policy, carrying the counters already mutated at that point. -/
def trackAndMaybeSkip (mode : UnsupportedGeometryMode) (profile : ImportProfile)
    (c0 : RunCounters) (doc : OsmDoc) : Except (String × RunCounters) (Bool × RunCounters) :=
  let g := geometryTypeOf doc
  let c := { c0 with
    seen := c0.seen + 1
    geometryTypeCounts := bumpCount c0.geometryTypeCounts g }
  if shouldImportFeatureForProfile doc profile = false then
    .ok (true, { c with skippedByProfile := c.skippedByProfile + 1 })
  else if isArangoSupportedGeoJsonGeometryType g then
    .ok (false, c)
  else
    let c := { c with
      unsupportedGeometryTypeCounts := bumpCount c.unsupportedGeometryTypeCounts g }
    match mode with
    | .keep => .ok (false, c)
    | .error => .error (unsupportedGeometryMessage g, c)
    | .skip => .ok (true, { c with
        skippedUnsupportedGeometry := c.skippedUnsupportedGeometry + 1 })

/-- `stripRecordSeparator` (lines 383-385): drops one leading 0x1E byte. -/
def stripRecordSeparator (line : String) : String :=
  match line.data with
  | c :: rest => if c.toNat = 0x1E then String.mk rest else line
  | [] => line

/-- The WhiteSpace / LineTerminator set of JavaScript
`String.prototype.trim`. -/
def isJsWhitespace (c : Char) : Bool :=
  c.toNat ∈ [0x9, 0xA, 0xB, 0xC, 0xD, 0x20, 0xA0, 0x1680, 0x2028, 0x2029,
    0x202F, 0x205F, 0x3000, 0xFEFF]
  || (0x2000 ≤ c.toNat && c.toNat ≤ 0x200A)

/-- `String.prototype.trim`. -/
def jsTrim (s : String) : String :=
  String.mk (((s.data.dropWhile isJsWhitespace).reverse.dropWhile isJsWhitespace).reverse)

/-- The options of `importOsm` the ndjson reading loop consults. -/
structure NdjsonCfg where
  chunkBytes : Nat
  invalidJson : InvalidJsonMode
  unsupportedGeometry : UnsupportedGeometryMode
  profile : ImportProfile
  dryRun : Bool
deriving Repr

/-- Loop state of the ndjson adapter: the `record` counter, the skip/type
counters, the open chunker, and the batches handed to `enqueueChunk` so
far (each of which started an upload, unless `dryRun`). -/
structure LoopState where
  record : Nat
  counters : RunCounters
  chunker : ChunkerState OsmDoc
  dispatched : List (List OsmDoc)
deriving Repr, DecidableEq

def initLoopState : LoopState := ⟨0, initCounters, chunkerInit OsmDoc, []⟩

/-- `pushDoc` + `enqueueChunk` (lines 159-187): push into the chunker with
the explicit estimate; a returned batch is dispatched unless `dryRun`. -/
def pushDocM (cfg : NdjsonCfg) (sizeOf : OsmDoc → Nat) (st : LoopState)
    (doc : OsmDoc) (estimatedBytes : Nat) : LoopState :=
  match chunkerPush cfg.chunkBytes sizeOf st.chunker doc (some estimatedBytes) with
  | (none, ch) => { st with chunker := ch }
  | (some chunk, ch) =>
    { st with
      chunker := ch
      dispatched := if cfg.dryRun then st.dispatched else st.dispatched ++ [chunk] }

/-- One iteration of the ndjson reading loop (lines 242-268): count the
record, strip the optional 0x1E record separator, trim, skip blank lines,
parse JSON under the `invalidJson` policy, normalize, track/filter, and
push the surviving document with estimate `line.length + 1`.  Errors carry
the loop state at the throw point (`record` already counted, and for
`trackAndMaybeSkip` the counters it mutated before throwing). -/
def ndjsonStep (J : Type) (cfg : NdjsonCfg) (jsonParse : String → Option J)
    (normalize : J → Except String OsmDoc) (sizeOf : OsmDoc → Nat)
    (st0 : LoopState) (line0 : String) : Except (String × LoopState) LoopState :=
  let st := { st0 with record := st0.record + 1 }
  let line := jsTrim (stripRecordSeparator line0)
  if line = "" then .ok st
  else
    match jsonParse line with
    | none =>
      match cfg.invalidJson with
      | .skip => .ok { st with counters := { st.counters with
          skippedInvalidJsonLines := st.counters.skippedInvalidJsonLines + 1
          maxInvalidJsonLineBytes := max st.counters.maxInvalidJsonLineBytes line.length } }
      | .error => .error ("Invalid JSON in NDJSON input", st)
    | some parsed =>
      match normalize parsed with
      | .error e => .error (e, st)
      | .ok doc =>
        match trackAndMaybeSkip cfg.unsupportedGeometry cfg.profile st.counters doc with
        | .error (msg, c) => .error (msg, { st with counters := c })
        | .ok (true, c) => .ok { st with counters := c }
        | .ok (false, c) =>
          .ok (pushDocM cfg sizeOf { st with counters := c } doc (line.length + 1))

/-- The whole ndjson reading loop over the yielded lines. -/
def runNdjsonLines (J : Type) (cfg : NdjsonCfg) (jsonParse : String → Option J)
    (normalize : J → Except String OsmDoc) (sizeOf : OsmDoc → Nat) :
    LoopState → List String → Except (String × LoopState) LoopState
  | st, [] => .ok st
  | st, l :: ls =>
    match ndjsonStep J cfg jsonParse normalize sizeOf st l with
    | .error e => .error e
    | .ok st' => runNdjsonLines J cfg jsonParse normalize sizeOf st' ls

/-- One `importDocuments` result (`TransportResult`). -/
structure TransportResult where
  created : Nat
  updated : Nat
  ignored : Nat
  empty : Nat
  errors : Nat
deriving Repr, DecidableEq

/-- All batches dispatched over the run: the loop's plus the final
`importer.flush()` batch, which is enqueued like any other (lines 350-352,
skipped when `dryRun`). -/
def importBatches (cfg : NdjsonCfg) (st : LoopState) : List (List OsmDoc) :=
  st.dispatched ++ (if cfg.dryRun then [] else (chunkerFlush st.chunker).1.toList)

def totalOf (upload : List OsmDoc → TransportResult) (f : TransportResult → Nat)
    (batches : List (List OsmDoc)) : Nat :=
  (batches.map (fun b => f (upload b))).sum

/-- `ImportSummary` (the fields the ndjson run produces; the line-reader
callback counters stay 0 here because the input is given as already-yielded
lines). -/
structure ImportSummaryModel where
  profile : ImportProfile
  seen : Nat
  created : Nat
  updated : Nat
  ignored : Nat
  empty : Nat
  errors : Nat
  skippedUnsupportedGeometry : Nat
  skippedByProfile : Nat
  skippedTooLongLines : Nat
  skippedInvalidJsonLines : Nat
  maxInvalidJsonLineBytes : Nat
  unsupportedGeometryMode : UnsupportedGeometryMode
  geometryTypeCounts : List (String × Nat)
  unsupportedGeometryTypeCounts : List (String × Nat)
deriving Repr, DecidableEq

/-- `importOsm` for the ndjson adapter, from the yielded lines to the final
summary or error (lines 239-381): run the reading loop, flush and dispatch
the final batch, fold every dispatch's `TransportResult` into the counters,
and fail with `Import finished with errors` when the aggregated `errors`
counter is positive (lines 358-361); otherwise return the summary.  An
error thrown anywhere discards the partial summary. -/
def importOsmNdjson (J : Type) (cfg : NdjsonCfg) (jsonParse : String → Option J)
    (normalize : J → Except String OsmDoc) (sizeOf : OsmDoc → Nat)
    (upload : List OsmDoc → TransportResult) (lines : List String) :
    Except String ImportSummaryModel :=
  match runNdjsonLines J cfg jsonParse normalize sizeOf initLoopState lines with
  | .error (msg, _) => .error msg
  | .ok st =>
    let batches := importBatches cfg st
    let errors := totalOf upload (fun r => r.errors) batches
    if 0 < errors then .error "Import finished with errors"
    else .ok {
      profile := cfg.profile
      seen := st.counters.seen
      created := totalOf upload (fun r => r.created) batches
      updated := totalOf upload (fun r => r.updated) batches
      ignored := totalOf upload (fun r => r.ignored) batches
      empty := totalOf upload (fun r => r.empty) batches
      errors := errors
      skippedUnsupportedGeometry := st.counters.skippedUnsupportedGeometry
      skippedByProfile := st.counters.skippedByProfile
      skippedTooLongLines := st.counters.skippedTooLongLines
      skippedInvalidJsonLines := st.counters.skippedInvalidJsonLines
      maxInvalidJsonLineBytes := st.counters.maxInvalidJsonLineBytes
      unsupportedGeometryMode := cfg.unsupportedGeometry
      geometryTypeCounts := st.counters.geometryTypeCounts
      unsupportedGeometryTypeCounts := st.counters.unsupportedGeometryTypeCounts }

/-- C10: a line that is empty after stripping the optional leading 0x1E
record separator and trimming whitespace is discarded by the ndjson loop
with no observable effect: `seen`, every skip counter,
`geometryTypeCounts` (and every other counter), the open chunker batch and
the dispatched batches are all unchanged; only the loop-local `record`
counter advances. -/
theorem ndjson_blank_line_no_effect (J : Type) (cfg : NdjsonCfg)
    (jsonParse : String → Option J) (normalize : J → Except String OsmDoc)
    (sizeOf : OsmDoc → Nat) (st : LoopState) (line0 : String)
    (h : jsTrim (stripRecordSeparator line0) = "") :
    ndjsonStep J cfg jsonParse normalize sizeOf st line0
      = .ok { st with record := st.record + 1 } := by
  simp [ndjsonStep, h]

/-- Witness for `ndjson_blank_line_no_effect`: a line holding just the
record separator and spaces. -/
theorem ndjson_blank_line_no_effect_witness :
    jsTrim (stripRecordSeparator "\x1E  ") = ""
    ∧ ndjsonStep Unit ⟨8, .error, .skip, .all, false⟩ (fun _ => none)
        (fun _ => .error "Unsupported NDJSON document shape") (fun _ => 0)
        initLoopState "\x1E  "
      = .ok { initLoopState with record := initLoopState.record + 1 } :=
  ⟨by rfl,
    ndjson_blank_line_no_effect Unit ⟨8, .error, .skip, .all, false⟩ (fun _ => none)
      (fun _ => .error "Unsupported NDJSON document shape") (fun _ => 0)
      initLoopState "\x1E  " (by rfl)⟩

/-- C4: with the `error` unsupported-geometry policy, the first record whose
geometry type is unsupported (and which passed the profile filter) makes
the reading loop throw immediately: the step returns the source's
descriptive error, and the state at the throw shows no batch was dispatched
by this record and the open chunker batch is untouched (only `record` and
the tracking counters moved). -/
theorem import_aborts_on_unsupported_geometry (J : Type) (cfg : NdjsonCfg)
    (jsonParse : String → Option J) (normalize : J → Except String OsmDoc)
    (sizeOf : OsmDoc → Nat) (st : LoopState) (line0 : String) (j : J) (doc : OsmDoc)
    (hmode : cfg.unsupportedGeometry = .error)
    (hline : ¬jsTrim (stripRecordSeparator line0) = "")
    (hparse : jsonParse (jsTrim (stripRecordSeparator line0)) = some j)
    (hnz : normalize j = .ok doc)
    (hprof : shouldImportFeatureForProfile doc cfg.profile = true)
    (hgeom : isArangoSupportedGeoJsonGeometryType (geometryTypeOf doc) = false) :
    ∃ c, ndjsonStep J cfg jsonParse normalize sizeOf st line0
        = .error (unsupportedGeometryMessage (geometryTypeOf doc),
            { st with record := st.record + 1, counters := c })
      ∧ ({ st with record := st.record + 1, counters := c } : LoopState).dispatched
          = st.dispatched
      ∧ ({ st with record := st.record + 1, counters := c } : LoopState).chunker
          = st.chunker := by
  refine ⟨{ st.counters with
    seen := st.counters.seen + 1
    geometryTypeCounts := bumpCount st.counters.geometryTypeCounts (geometryTypeOf doc)
    unsupportedGeometryTypeCounts :=
      bumpCount st.counters.unsupportedGeometryTypeCounts (geometryTypeOf doc) },
    ?_, rfl, rfl⟩
  simp [ndjsonStep, hline, hparse, hnz, trackAndMaybeSkip, hprof, hgeom, hmode]

/-- Scenario fixtures for the `error`-policy run: two records, a `Point`
then a `GeometryCollection`. -/
def c4PointDoc : OsmDoc := ⟨"p1", some "Point", []⟩

def c4GcDoc : OsmDoc := ⟨"g1", some "GeometryCollection", []⟩

def c4Cfg : NdjsonCfg := ⟨1000000, .error, .error, .all, false⟩

def c4Normalize : String → Except String OsmDoc := fun s =>
  if s = "p" then .ok c4PointDoc
  else if s = "g" then .ok c4GcDoc
  else .error "Unsupported NDJSON document shape"

/-- The loop state after the `Point` record: it sits in the open chunker
batch, nothing dispatched. -/
def c4MidState : LoopState :=
  ⟨1, ⟨1, 0, 0, 0, 0, 0, [("Point", 1)], []⟩,
    ⟨[c4PointDoc], 2⟩, []⟩

/-- The loop state at the throw: both records seen and typed, the
unsupported one counted, still nothing dispatched. -/
def c4FailState : LoopState :=
  ⟨2, ⟨2, 0, 0, 0, 0, 0, [("Point", 1), ("GeometryCollection", 1)],
      [("GeometryCollection", 1)]⟩,
    ⟨[c4PointDoc], 2⟩, []⟩

/-- Witness for `import_aborts_on_unsupported_geometry`: the two-record run
(`Point`, then `GeometryCollection`) under policy `error` throws with zero
batches dispatched. -/
theorem import_aborts_on_unsupported_geometry_witness :
    runNdjsonLines String c4Cfg some c4Normalize (fun _ => 0) initLoopState ["p", "g"]
        = .error (unsupportedGeometryMessage "GeometryCollection", c4FailState)
    ∧ c4FailState.dispatched = []
    ∧ (∃ c, ndjsonStep String c4Cfg some c4Normalize (fun _ => 0) c4MidState "g"
        = .error (unsupportedGeometryMessage (geometryTypeOf c4GcDoc),
            { c4MidState with record := c4MidState.record + 1, counters := c })
      ∧ ({ c4MidState with record := c4MidState.record + 1, counters := c } : LoopState).dispatched
          = c4MidState.dispatched
      ∧ ({ c4MidState with record := c4MidState.record + 1, counters := c } : LoopState).chunker
          = c4MidState.chunker) :=
  ⟨by rfl, by rfl,
    import_aborts_on_unsupported_geometry String c4Cfg some c4Normalize (fun _ => 0)
      c4MidState "g" "g" c4GcDoc rfl (by decide) (by rfl) (by rfl) (by rfl) (by rfl)⟩

/-- C3: after the loop finishes, the final open batch is flushed and
dispatched with the rest, and the run's outcome is decided by the
aggregated `errors` counter over every dispatch result: a positive total
makes `importOsm` throw `Import finished with errors` even though every
upload returned a result, and a returned summary always has `errors = 0` —
there is no partial-success return path. -/
theorem import_errors_are_fatal (J : Type) (cfg : NdjsonCfg)
    (jsonParse : String → Option J) (normalize : J → Except String OsmDoc)
    (sizeOf : OsmDoc → Nat) (upload : List OsmDoc → TransportResult)
    (lines : List String) :
    (∀ s, importOsmNdjson J cfg jsonParse normalize sizeOf upload lines = .ok s →
      s.errors = 0)
    ∧ (∀ st, runNdjsonLines J cfg jsonParse normalize sizeOf initLoopState lines = .ok st →
        0 < totalOf upload (fun r => r.errors) (importBatches cfg st) →
        importOsmNdjson J cfg jsonParse normalize sizeOf upload lines
          = .error "Import finished with errors") := by
  constructor
  · intro s hs
    cases hr : runNdjsonLines J cfg jsonParse normalize sizeOf initLoopState lines with
    | error e => simp [importOsmNdjson, hr] at hs
    | ok st =>
      simp only [importOsmNdjson, hr] at hs
      by_cases he : 0 < totalOf upload (fun r => r.errors) (importBatches cfg st)
      · rw [if_pos he] at hs
        exact Except.noConfusion hs
      · rw [if_neg he] at hs
        cases hs
        simpa using Nat.eq_zero_of_not_pos he
  · intro st hst hpos
    simp only [importOsmNdjson, hst]
    rw [if_pos hpos]

/-- Scenario fixtures for a run whose single upload reports one rejected
document. -/
def c3Cfg : NdjsonCfg := ⟨1000000, .error, .skip, .all, false⟩

def c3Normalize : String → Except String OsmDoc := fun _ => .ok ⟨"k1", some "Point", []⟩

def c3Upload : List OsmDoc → TransportResult := fun _ => ⟨0, 0, 0, 0, 1⟩

/-- Witness for `import_errors_are_fatal`: one record imported, the store
reports `errors: 1` inside a successful call, and the run fails. -/
theorem import_errors_are_fatal_witness :
    importOsmNdjson String c3Cfg some c3Normalize (fun _ => 0) c3Upload ["x"]
        = .error "Import finished with errors"
    ∧ (∀ s, importOsmNdjson String c3Cfg some c3Normalize (fun _ => 0) c3Upload ["x"]
        = .ok s → s.errors = 0) :=
  ⟨(import_errors_are_fatal String c3Cfg some c3Normalize (fun _ => 0) c3Upload ["x"]).2
      _ (by rfl) (by decide),
    (import_errors_are_fatal String c3Cfg some c3Normalize (fun _ => 0) c3Upload ["x"]).1⟩

/-! ### Bounded concurrency (src/domain/import.ts, `enqueueChunk`, lines 159-181)

`enqueueChunk` starts the upload (the `importDocuments` call), adds its
promise to the `inFlight` set, and then loops
`while (inFlight.size >= opts.concurrency) await Promise.race(inFlight)`
before returning to the (single, sequential) reading loop.  We embed this
as a labelled transition system over the pair (size of `inFlight`, whether
the orchestrator is suspended inside that while loop).  A `start`
transition — calling `importDocuments` and adding the promise — is only
possible while the orchestrator is not suspended; it leaves the
orchestrator suspended exactly when the grown set has reached the limit.
A `settle` transition removes one promise (`p.finally(...)`) and wakes the
orchestrator exactly when the set has dropped below the limit (the while
condition is re-checked).  Every interleaving of the real program maps to
a trace of this system. -/

structure DispatchState where
  inFlight : Nat
  blocked : Bool
deriving Repr, DecidableEq

inductive DispatchLabel where
  | start
  | settle
deriving Repr, DecidableEq

inductive DispatchStep (limit : Nat) : DispatchLabel → DispatchState → DispatchState → Prop
  | start (s : DispatchState) (h : s.blocked = false) :
      DispatchStep limit .start s ⟨s.inFlight + 1, decide (limit ≤ s.inFlight + 1)⟩
  | settle (s : DispatchState) (n : Nat) (h : s.inFlight = n + 1) :
      DispatchStep limit .settle s ⟨n, s.blocked && decide (limit ≤ n)⟩

/-- States reachable from the start of a run (no uploads in flight, the
orchestrator running). -/
inductive DispatchReachable (limit : Nat) : DispatchState → Prop
  | init : DispatchReachable limit ⟨0, false⟩
  | next {s s' : DispatchState} {l : DispatchLabel} :
      DispatchReachable limit s → DispatchStep limit l s s' → DispatchReachable limit s'

/-- While the orchestrator is not suspended in the backpressure loop, the
in-flight count is strictly below the concurrency limit. -/
theorem dispatch_unblocked_below_limit (limit : Nat) (hl : 1 ≤ limit) :
    ∀ s, DispatchReachable limit s → s.blocked = false → s.inFlight < limit := by
  intro s hr
  induction hr with
  | init => intro _; exact hl
  | next ha hstep ih =>
    cases hstep with
    | start s h =>
      intro hb
      simp only [decide_eq_false_iff_not, not_le] at hb
      exact hb
    | settle s n h =>
      intro hb
      rcases Bool.and_eq_false_iff.mp hb with hb' | hb'
      · have hlt := ih hb'
        show n < limit
        omega
      · simp only [decide_eq_false_iff_not, not_le] at hb'
        exact hb'

/-- C5: with a positive configured concurrency limit, an upload dispatch is
never started at a moment when the number of in-flight dispatches already
equals (or exceeds) the limit: every `start` transition fires from a state
with strictly fewer in-flight uploads than the limit, because the
backpressure loop suspends the orchestrator until at least one outstanding
dispatch settles. -/
theorem upload_never_starts_at_limit (limit : Nat) (hl : 1 ≤ limit)
    (s s' : DispatchState) (hr : DispatchReachable limit s)
    (hstep : DispatchStep limit .start s s') :
    s.inFlight < limit := by
  cases hstep with
  | start _ hb => exact dispatch_unblocked_below_limit limit hl s hr hb

/-- Witness for `upload_never_starts_at_limit`: the first dispatch of a run
with `concurrency = 1` starts with zero uploads in flight. -/
theorem upload_never_starts_at_limit_witness :
    DispatchStep 1 .start ⟨0, false⟩ ⟨1, true⟩
    ∧ (⟨0, false⟩ : DispatchState).inFlight < 1 :=
  have hstep : DispatchStep 1 .start ⟨0, false⟩ ⟨1, true⟩ :=
    @DispatchStep.start 1 ⟨0, false⟩ rfl
  ⟨hstep,
    upload_never_starts_at_limit 1 (Nat.le_refl 1) ⟨0, false⟩ ⟨1, true⟩
      DispatchReachable.init hstep⟩

/-! ## Raw-HTTP upload transport
(`importDocumentsViaNodeHttp`, src/arango/arango.data.ts)

The function builds one HTTP request by hand and sends it through
`node:http(s)` `request`.  We embed the request construction; the
connection is given with its URL already parsed (`new URL(conn.url)` is a
platform collaborator), and the JSON serializer `JSON.stringify` is the
`serialize` parameter.  UTF-8 encoding, Basic-auth base64, and the
`encodeURIComponent`/`URLSearchParams` percent-encodings are embedded
bit-exactly. -/

/-- UTF-8 encoding of one code point. -/
def charUtf8 (c : Char) : List Nat :=
  let n := c.toNat
  if n < 0x80 then [n]
  else if n < 0x800 then [0xC0 + n / 64, 0x80 + n % 64]
  else if n < 0x10000 then [0xE0 + n / 4096, 0x80 + n / 64 % 64, 0x80 + n % 64]
  else [0xF0 + n / 262144, 0x80 + n / 4096 % 64, 0x80 + n / 64 % 64, 0x80 + n % 64]

/-- The UTF-8 bytes of a string (`Buffer.from(s, 'utf8')`). -/
def utf8Bytes (s : String) : List Nat := (s.data.map charUtf8).flatten

/-- `Buffer.byteLength(s, 'utf8')`. -/
def utf8Length (s : String) : Nat := (utf8Bytes s).length

def base64Chars : List Char :=
  "ABCDEFGHIJKLMNOPQRSTUVWXYZabcdefghijklmnopqrstuvwxyz0123456789+/".data

def b64c (n : Nat) : Char := base64Chars.getD n 'A'

/-- Standard base64 with `=` padding (`Buffer.toString('base64')`). -/
def base64Encode : List Nat → List Char
  | [] => []
  | [a] => [b64c (a / 4), b64c (a % 4 * 16), '=', '=']
  | [a, b] => [b64c (a / 4), b64c (a % 4 * 16 + b / 16), b64c (b % 16 * 4), '=']
  | a :: b :: c :: rest =>
    b64c (a / 4) :: b64c (a % 4 * 16 + b / 16) :: b64c (b % 16 * 4 + c / 64)
      :: b64c (c % 64) :: base64Encode rest

/-- `Buffer.from(user + ":" + pass, 'utf8').toString('base64')`. -/
def basicAuth (user pass : String) : String :=
  String.mk (base64Encode (utf8Bytes (user ++ ":" ++ pass)))

def isAlphaNumByte (n : Nat) : Bool :=
  (48 ≤ n && n ≤ 57) || (65 ≤ n && n ≤ 90) || (97 ≤ n && n ≤ 122)

def hexDigit (n : Nat) : Char := "0123456789ABCDEF".data.getD n '0'

def percentByte (b : Nat) : List Char := ['%', hexDigit (b / 16), hexDigit (b % 16)]

/-- `encodeURIComponent`: besides alphanumerics, the marks
`- _ . ! ~ * ' ( )` (bytes 45 95 46 33 126 42 39 40 41) stay literal; every
other character is percent-encoded per UTF-8 byte. -/
def encodeURIComponent (s : String) : String :=
  String.mk ((s.data.map (fun c =>
    if isAlphaNumByte c.toNat || c.toNat ∈ [45, 95, 46, 33, 126, 42, 39, 40, 41] then [c]
    else ((charUtf8 c).map percentByte).flatten)).flatten)

/-- One byte under `application/x-www-form-urlencoded` serialization
(`URLSearchParams.toString`): space becomes `+`; alphanumerics and
`* - . _` stay; the rest is percent-encoded. -/
def formEncodeByte (b : Nat) : List Char :=
  if b = 32 then ['+']
  else if isAlphaNumByte b || b ∈ [42, 45, 46, 95] then [Char.ofNat b]
  else percentByte b

def formEncodeString (s : String) : String :=
  String.mk (((utf8Bytes s).map formEncodeByte).flatten)

/-- `Array.prototype.join(sep)`. -/
def joinSep (sep : String) : List String → String
  | [] => ""
  | [x] => x
  | x :: y :: xs => x ++ sep ++ joinSep sep (y :: xs)

/-- The optional `onDuplicate` query parameter (`if (opts?.onDuplicate)
searchParams.set('onDuplicate', ...)`). -/
def onDupParams : Option String → List (String × String)
  | some m => [("onDuplicate", m)]
  | none => []

/-- `URLSearchParams.toString()` over params inserted with `set`, in
insertion order. -/
def formEncodeParams (ps : List (String × String)) : String :=
  joinSep "&" (ps.map (fun p => formEncodeString p.1 ++ "=" ++ formEncodeString p.2))

/-- The connection configuration, with `new URL(conn.url)` already split
into protocol / hostname / port / pathname. -/
structure ArangoConnection where
  protocol : String
  hostname : String
  port : Option Nat
  pathname : String
  database : String
  username : String
  password : String
deriving Repr, DecidableEq

/-- The request handed to the `node:http(s)` `request` primitive: method,
host, port, path (with query string), headers in order, and the body
written by `req.end(body)`. -/
structure NodeHttpRequest where
  method : String
  hostname : String
  port : Nat
  path : String
  headers : List (String × String)
  body : String
deriving Repr, DecidableEq

/-- `baseUrl.pathname.endsWith('/') ? pathname.slice(0, -1) : pathname`. -/
def basePathOf (pathname : String) : String :=
  match pathname.data.getLast? with
  | some c => if c = '/' then String.mk pathname.data.dropLast else pathname
  | none => pathname

/-- `importDocumentsViaNodeHttp` up to the wire (lines 543-606): protocol
check, path and query construction, newline-joined body with trailing
newline, exact `content-length`, Basic-auth header, and port defaulting. -/
def buildNodeHttpImportRequest (conn : ArangoConnection) (collection : String)
    (docsSer : List String) (onDuplicate : Option String) :
    Except String NodeHttpRequest :=
  if ¬(conn.protocol = "http:" ∨ conn.protocol = "https:") then
    .error ("Unsupported ArangoDB URL protocol: " ++ conn.protocol)
  else
    let basePath := basePathOf conn.pathname
    let pathname := basePath ++ "/_db/" ++ encodeURIComponent conn.database ++ "/_api/import"
    let params := [("collection", collection), ("type", "documents")]
      ++ onDupParams onDuplicate
    let body := joinSep "\n" docsSer ++ "\n"
    let contentLength := utf8Length body
    let auth := basicAuth conn.username conn.password
    let port :=
      match conn.port with
      | some p => p
      | none => if conn.protocol = "https:" then 443 else 80
    .ok {
      method := "POST"
      hostname := conn.hostname
      port := port
      path := pathname ++ "?" ++ formEncodeParams params
      headers := [
        ("authorization", "Basic " ++ auth),
        ("accept", "application/json"),
        ("content-type", "application/x-ldjson"),
        ("content-length", toString contentLength)]
      body := body }

theorem joinSep_newline_body :
    ∀ l : List String, l ≠ [] →
    joinSep "\n" l ++ "\n" = l.foldr (fun d acc => d ++ "\n" ++ acc) "" := by
  intro l
  induction l with
  | nil => intro h; exact absurd rfl h
  | cons x xs ih =>
    intro _
    cases xs with
    | nil => simp [joinSep, String.append_empty]
    | cons y ys =>
      simp only [joinSep]
      rw [String.append_assoc, ih (by simp)]
      rfl

/-- C6: for a non-empty document list, the node-http transport sends
exactly `POST {basePath}/_db/{database}/_api/import` with query parameters
`collection`, `type=documents`, and `onDuplicate` only when provided;
headers `authorization: Basic base64(user:pass)`,
`accept: application/json`, `content-type: application/x-ldjson`, and
`content-length` equal to the exact UTF-8 byte length of the body; and a
body that is each document's serialization followed by `\n`, concatenated —
one document per line, exactly one trailing newline. -/
theorem nodeHttp_wire_contract (conn : ArangoConnection) (collection : String)
    (D : Type) (serialize : D → String) (docs : List D) (onDuplicate : Option String)
    (req : NodeHttpRequest)
    (hne : docs ≠ [])
    (hbuild : buildNodeHttpImportRequest conn collection (docs.map serialize) onDuplicate
        = .ok req) :
    req.method = "POST"
    ∧ req.path = basePathOf conn.pathname ++ "/_db/" ++ encodeURIComponent conn.database
        ++ "/_api/import" ++ "?"
        ++ formEncodeParams ([("collection", collection), ("type", "documents")]
          ++ onDupParams onDuplicate)
    ∧ req.headers = [
        ("authorization", "Basic " ++ basicAuth conn.username conn.password),
        ("accept", "application/json"),
        ("content-type", "application/x-ldjson"),
        ("content-length", toString (utf8Length req.body))]
    ∧ req.body = (docs.map serialize).foldr (fun d acc => d ++ "\n" ++ acc) "" := by
  by_cases hp : ¬(conn.protocol = "http:" ∨ conn.protocol = "https:")
  · rw [buildNodeHttpImportRequest.eq_def, if_pos hp] at hbuild
    exact Except.noConfusion hbuild
  · rw [buildNodeHttpImportRequest.eq_def, if_neg hp] at hbuild
    cases hbuild
    refine ⟨rfl, rfl, rfl, ?_⟩
    exact joinSep_newline_body (docs.map serialize) (by simpa using hne)

/-- Witness for `nodeHttp_wire_contract`: two documents against database
`db`, user `root`, password `pw` (`base64("root:pw") = "cm9vdDpwdw=="`). -/
theorem nodeHttp_wire_contract_witness :
    buildNodeHttpImportRequest ⟨"http:", "localhost", some 8529, "/", "db", "root", "pw"⟩
        "osm" ((["\x7b\x22a\x22:1\x7d", "\x7b\x22b\x22:2\x7d"] : List String).map id) (some "update")
      = .ok {
          method := "POST"
          hostname := "localhost"
          port := 8529
          path := "/_db/db/_api/import?collection=osm&type=documents&onDuplicate=update"
          headers := [
            ("authorization", "Basic cm9vdDpwdw=="),
            ("accept", "application/json"),
            ("content-type", "application/x-ldjson"),
            ("content-length", "16")]
          body := "\x7b\x22a\x22:1\x7d\n\x7b\x22b\x22:2\x7d\n" }
    ∧ ("\x7b\x22a\x22:1\x7d\n\x7b\x22b\x22:2\x7d\n" : String)
        = (["\x7b\x22a\x22:1\x7d", "\x7b\x22b\x22:2\x7d"] : List String).foldr
            (fun d acc => d ++ "\n" ++ acc) "" := by
  constructor
  · rfl
  · have h := nodeHttp_wire_contract
      ⟨"http:", "localhost", some 8529, "/", "db", "root", "pw"⟩ "osm" String id
      ["\x7b\x22a\x22:1\x7d", "\x7b\x22b\x22:2\x7d"] (some "update") _ (by simp) (by rfl)
    exact h.2.2.2

end Osm2Arango
